import Mathlib

/-!
Shallow embedding of the irqstats plugin's `/proc/interrupts` parser
(`read_interrupts` in src/src/plugins/p/irqstats.c) together with proofs
about it.

A line is modelled as a list of characters (without the trailing newline);
the input stream is a list of such lines.  `strtok(buf, " ")` is modelled
by `nextTok` and `splitToks`, the per-CPU counter loop by `scanGo`, the
description extraction performed in config mode by `descText`/`descStage`,
and the whole pass by `readInterrupts`.  Undefined behaviour that the C
code can actually reach (a `strcpy` from a NULL pointer, and the
`description[-1]` write when the token join is empty) is made explicit by
the `crash` constructors.
-/

/-- Convert a string literal to the character-list representation used by the model. -/
def str (s : String) : List Char := s.toList

/-- C `isdigit` in the ASCII range used by the parser. -/
def isdigitC (c : Char) : Bool := '0' ≤ c && c ≤ '9'

/-- C `isspace` (C locale). -/
def isspaceC (c : Char) : Bool :=
  c == ' ' || c == '\t' || c == '\n' || c == '\x0b' || c == '\x0c' || c == '\r'

/-- C `isblank` (C locale). -/
def isblankC (c : Char) : Bool := c == ' ' || c == '\t'

/-- The helper `isnumeric` from irqstats.c: a nonempty, all-digit string. -/
def isnumericL (s : List Char) : Bool := !s.isEmpty && s.all isdigitC

/-- The helper `isempty` from irqstats.c: empty, or nothing but whitespace. -/
def isemptyL (s : List Char) : Bool := s.isEmpty || s.all isspaceC

/-- The helper `endswith` from irqstats.c: length check plus a `strcmp`
against the final characters of the haystack. -/
def endswithL (h n : List Char) : Bool :=
  if h.length < n.length then false else h.drop (h.length - n.length) == n

/-- Numeric value of a digit string. -/
def natOfDigits (s : List Char) : Nat := s.foldl (fun a c => a * 10 + (c.toNat - 48)) 0

/-- `strtol(s, NULL, 10)` on the tokens the parser feeds it (unsigned digit
strings): the value of the digit prefix, saturated at `LONG_MAX` of a
64-bit system. -/
def strtolSat (s : List Char) : Nat :=
  min (natOfDigits (s.takeWhile isdigitC)) (2 ^ 63 - 1)

/-- `strtoul(s, NULL, 10)` on digit-initial tokens: the value of the digit
prefix, saturated at `ULONG_MAX`. -/
def strtoul10 (s : List Char) : Nat :=
  min (natOfDigits (s.takeWhile isdigitC)) (2 ^ 64 - 1)

/-- One step of `irqstats[irq_num].count += strtol(pos, NULL, 10)`:
the accumulator is an `unsigned long`, so addition wraps modulo `2 ^ 64`. -/
def countAdd (a : Nat) (t : List Char) : Nat := (a + strtolSat t) % 2 ^ 64

/-- One `strtok(_, " ")` step: skip leading spaces, return the token and the
remaining characters.  The remainder still starts with the delimiting space
when one exists, mirroring the `'\0'` that `strtok` writes over it. -/
def nextTok (s : List Char) : Option (List Char × List Char) :=
  match s.dropWhile (· == ' ') with
  | [] => none
  | c :: cs => some (c :: cs.takeWhile (· != ' '), cs.dropWhile (· != ' '))

/-- Fuelled iteration of `nextTok` (the fuel only needs to dominate the
length of the input, see `splitToks_eq`). -/
def splitTokGo : Nat → List Char → List (List Char)
  | 0, _ => []
  | fuel + 1, s =>
    match nextTok s with
    | none => []
    | some (t, r) => t :: splitTokGo fuel r

/-- All `strtok(_, " ")` tokens of a line, in order. -/
def splitToks (s : List Char) : List (List Char) := splitTokGo s.length s

/-- One `irqstat_t` record. -/
structure Irqstat where
  name : List Char
  description : Option (List Char)
  hwirq : Nat
  has_hwirq : Bool
  count : Nat
deriving DecidableEq, Repr

/-- Compile-time architecture selection (`#ifdef __sparc__`). -/
inductive Arch where
  | generic : Arch
  | sparc : Arch
deriving DecidableEq, Repr

/-- Result of scanning the per-CPU counter columns of one line: `err` is the
whole-parse failure (`return 0`), `done count lastRest` carries the counter
total and, when the final `pos` was not NULL, the characters remaining after
the last token `strtok` produced. -/
inductive SRes where
  | err : SRes
  | done : Nat → Option (List Char) → SRes
deriving DecidableEq, Repr

/-- The counter loop body: `n` remaining iterations, current text, running
count, whether this is still the first iteration (`cpu_idx == 0`), and the
remainder after the previously fetched token. -/
def scanGo : Nat → List Char → Nat → Bool → Option (List Char) → SRes
  | 0, _, count, _, lr => .done count lr
  | n + 1, s, count, first, _ =>
    match nextTok s with
    | none => if first then .err else .done count none
    | some (t, r) =>
      if isnumericL t then scanGo n r (countAdd count t) false (some r)
      else if first then .err
      else .done count (some r)

/-- The counter loop `for (cpu_idx = 0; cpu_idx <= cpu_num; cpu_idx++)`:
`cpuCount` is the number of header columns, i.e. `cpu_num + 1` iterations. -/
def scanCounters (cpuCount : Nat) (s : List Char) : SRes := scanGo cpuCount s 0 true none

/-- The trailing-whitespace trim loop (`*eos-- = '\0'`). -/
def dropLastWhile (p : Char → Bool) (s : List Char) : List Char :=
  (s.reverse.dropWhile p).reverse

/-- Leading-blank skip followed by the trailing-whitespace trim. -/
def trimC (s : List Char) : List Char := dropLastWhile isspaceC (s.dropWhile isblankC)

/-- The description handoff after the counter loop: given the remainder
after the last fetched token (`none` when `pos` was NULL), decide whether
description text exists and produce it trimmed.  The `_ :: p` step models
`++pos` moving past the `'\0'` that `strtok` wrote over the delimiter. -/
def descText : Option (List Char) → Option (List Char)
  | none => none
  | some [] => none
  | some (_ :: p) => if isemptyL p then none else some (trimC p)

/-- Result of the description extraction; `crash` marks reachable undefined
behaviour: `strcpy(description, pos)` with `pos == NULL` on the single-token
path, and the `description[-1]` write when the token join is empty. -/
inductive DRes where
  | crash : DRes
  | ok : List Char → Option Nat → DRes
deriving DecidableEq, Repr

/-- Bus-type tokens dropped by the generic rule. -/
def typeTok (t : List Char) : Bool :=
  t == str ("Edge") || t == str ("Level") || t == str ("None")

/-- The `else` branch shared by every architecture (most x86 interrupts,
old ARM): the start index and the optional hardware irq derived from an
`18-fasteoi` / `1048579-edge` style token. -/
def x86start (name t1 : List Char) : Nat × Option Nat :=
  if isdigitC (t1.headD ' ') &&
      (endswithL t1 (str ("-fasteoi")) || endswithL t1 (str ("-edge"))) then
    (2, if strtoul10 t1 == strtoul10 name then none else some (strtoul10 t1))
  else (1, none)

/-- Description extraction for a line whose (trimmed, nonempty) trailing
text is `p2`: the non-numeric-name verbatim path, the token array capped at
`MAX_TOKENS = 32`, the architecture-selected `token_start` and hardware-irq
rules, and the space join of the surviving tokens. -/
def descStage (arch : Arch) (name p2 : List Char) : DRes :=
  if isnumericL name = false then .ok p2 none
  else
    match (splitToks p2).take 32 with
    | [] => .crash
    | [_] => .crash
    | [t0, t1] =>
      let sh := x86start name t1
      match [t0, t1].drop sh.1 with
      | [] => .crash
      | u :: us => .ok (List.intercalate [' '] (u :: us)) sh.2
    | t0 :: t1 :: t2 :: ts =>
      let sh :=
        match arch with
        | .sparc => (2, if t2 == str ("MSIQ") then some (strtoul10 name) else none)
        | .generic =>
          if isnumericL t1 then
            (if typeTok t2 then 3 else 2,
             if strtoul10 t1 == strtoul10 name then none else some (strtoul10 t1))
          else x86start name t1
      match (t0 :: t1 :: t2 :: ts).drop sh.1 with
      | [] => .crash
      | u :: us => .ok (List.intercalate [' '] (u :: us)) sh.2

/-- Result of processing one data line. -/
inductive LRes where
  | crash : LRes
  | err : LRes
  | ok : Irqstat → LRes
deriving DecidableEq, Repr

/-- Processing of one non-header line: buffer-overflow check, name token
validation (a `':'` somewhere in token 0, whose last character is then
discarded), the counter loop, and — in config mode — the description stage. -/
def processLine (arch : Arch) (config : Bool) (cpuCount : Nat) (line : List Char) : LRes :=
  if 4095 ≤ line.length then .err
  else
    match nextTok line with
    | none => .err
    | some (tok0, rest0) =>
      if tok0.contains ':' then
        match scanCounters cpuCount rest0 with
        | .err => .err
        | .done count lastRest =>
          if config then
            match descText lastRest with
            | none => .ok ⟨tok0.dropLast, none, 0, false, count⟩
            | some p2 =>
              match descStage arch tok0.dropLast p2 with
              | .crash => .crash
              | .ok d hw => .ok ⟨tok0.dropLast, some d, hw.getD 0, hw.isSome, count⟩
          else .ok ⟨tok0.dropLast, none, 0, false, count⟩
      else .err

/-- Header parsing (`line_num == 0`): every token must begin with `"CPU"`;
the result is the number of CPU columns.  `none` aborts the whole parse. -/
def parseHeader (line : List Char) : Option Nat :=
  if 4095 ≤ line.length then none
  else
    let toks := splitToks line
    if toks.isEmpty then none
    else if toks.all (fun t => t.take 3 == str ("CPU")) then some toks.length
    else none

/-- Result of the whole pass: `err` models `return 0` after a diagnostic,
`crash` models reaching undefined behaviour, `ok` carries the records. -/
inductive PResult where
  | crash : PResult
  | err : PResult
  | ok : List Irqstat → PResult
deriving DecidableEq, Repr

/-- The data-line loop: the `irq_num == MAX_IRQS` bound is checked as soon
as a further line exists, before that line is examined. -/
def readGo (arch : Arch) (config : Bool) (cpuCount : Nat) :
    List (List Char) → List Irqstat → PResult
  | [], acc => .ok acc
  | l :: ls, acc =>
    if acc.length = 256 then .ok acc
    else
      match processLine arch config cpuCount l with
      | .err => .err
      | .crash => .crash
      | .ok r => readGo arch config cpuCount ls (acc ++ [r])

/-- The whole `read_interrupts` pass over a list of input lines. -/
def readInterrupts (arch : Arch) (config : Bool) (lines : List (List Char)) : PResult :=
  match lines with
  | [] => .ok []
  | h :: rest =>
    match parseHeader h with
    | none => .err
    | some n => readGo arch config n rest []

/-! ### Tokenizer lemmas -/

lemma dropWhile_length_le (p : Char → Bool) (l : List Char) :
    (l.dropWhile p).length ≤ l.length := by
  induction l with
  | nil => simp
  | cons c cs ih =>
    by_cases h : p c
    · rw [List.dropWhile_cons_of_pos h]
      exact Nat.le_succ_of_le ih
    · rw [List.dropWhile_cons_of_neg h]

lemma nextTok_rest_lt {s t r : List Char} (h : nextTok s = some (t, r)) :
    r.length < s.length := by
  unfold nextTok at h
  cases hd : s.dropWhile (· == ' ') with
  | nil => rw [hd] at h; cases h
  | cons c cs =>
    rw [hd] at h
    cases h
    have h1 : cs.length + 1 ≤ s.length := by
      have h2 := dropWhile_length_le (· == ' ') s
      rw [hd] at h2
      simpa using h2
    have h3 := dropWhile_length_le (· != ' ') cs
    omega

lemma splitTokGo_nil (fuel : Nat) : splitTokGo fuel [] = [] := by
  cases fuel <;> simp [splitTokGo, nextTok]

lemma splitTokGo_of_le :
    ∀ (f1 f2 : Nat) (s : List Char), s.length ≤ f1 → s.length ≤ f2 →
      splitTokGo f1 s = splitTokGo f2 s := by
  intro f1
  induction f1 with
  | zero =>
    intro f2 s h1 _
    have hs : s = [] := List.length_eq_zero.mp (Nat.le_zero.mp h1)
    subst hs
    simp [splitTokGo_nil]
  | succ m ih =>
    intro f2 s h1 h2
    cases f2 with
    | zero =>
      have hs : s = [] := List.length_eq_zero.mp (Nat.le_zero.mp h2)
      subst hs
      simp [splitTokGo_nil]
    | succ k =>
      cases hnt : nextTok s with
      | none => simp [splitTokGo, hnt]
      | some tr =>
        obtain ⟨t, r⟩ := tr
        have hlt := nextTok_rest_lt hnt
        simp only [splitTokGo, hnt]
        exact congrArg (t :: ·) (ih k r (by omega) (by omega))

lemma splitToks_none {s : List Char} (h : nextTok s = none) : splitToks s = [] := by
  cases s with
  | nil => simp [splitToks, splitTokGo_nil]
  | cons c cs => simp [splitToks, splitTokGo, h]

lemma splitToks_some {s t r : List Char} (h : nextTok s = some (t, r)) :
    splitToks s = t :: splitToks r := by
  have hlt := nextTok_rest_lt h
  cases hs : s with
  | nil => rw [hs] at h; cases h
  | cons c cs =>
    rw [hs] at h hlt
    have hlt' : r.length < cs.length + 1 := by simpa using hlt
    show splitTokGo (c :: cs).length (c :: cs) = t :: splitToks r
    simp only [List.length_cons, splitTokGo, h]
    exact congrArg (t :: ·) (splitTokGo_of_le cs.length r.length r (by omega) le_rfl)

lemma nextTok_of_splitToks_cons {s t : List Char} {ts : List (List Char)}
    (h : splitToks s = t :: ts) :
    ∃ r, nextTok s = some (t, r) ∧ splitToks r = ts := by
  cases hnt : nextTok s with
  | none => rw [splitToks_none hnt] at h; cases h
  | some tr =>
    obtain ⟨t', r⟩ := tr
    rw [splitToks_some hnt] at h
    injection h with h1 h2
    refine ⟨r, ?_, h2⟩
    rw [h1]

/-! ### Counter-loop lemmas -/

lemma scanGo_false (n : Nat) :
    ∀ (s : List Char) (count : Nat) (lr : Option (List Char)),
      ∃ lr', scanGo n s count false lr =
        .done ((((splitToks s).take n).takeWhile isnumericL).foldl countAdd count) lr' := by
  induction n with
  | zero => intro s count lr; exact ⟨lr, by simp [scanGo]⟩
  | succ m ih =>
    intro s count lr
    cases hnt : nextTok s with
    | none =>
      refine ⟨none, ?_⟩
      rw [splitToks_none hnt]
      simp [scanGo, hnt]
    | some tr =>
      obtain ⟨t, r⟩ := tr
      rw [splitToks_some hnt]
      by_cases hq : isnumericL t = true
      · obtain ⟨lr', hgo⟩ := ih r (countAdd count t) (some r)
        refine ⟨lr', ?_⟩
        simp only [scanGo, hnt, hq, if_true, List.take_succ_cons,
          List.takeWhile_cons_of_pos hq, List.foldl_cons]
        exact hgo
      · refine ⟨some r, ?_⟩
        have hq' : isnumericL t = false := by simpa using hq
        simp [scanGo, hnt, hq', List.takeWhile_cons_of_neg]

lemma scanGo_true_err {n : Nat} {s : List Char} (hn : 1 ≤ n) (count : Nat)
    (lr : Option (List Char))
    (h : ((splitToks s).take n).takeWhile isnumericL = []) :
    scanGo n s count true lr = .err := by
  obtain ⟨m, rfl⟩ : ∃ m, n = m + 1 := ⟨n - 1, by omega⟩
  cases hnt : nextTok s with
  | none => simp [scanGo, hnt]
  | some tr =>
    obtain ⟨t, r⟩ := tr
    rw [splitToks_some hnt, List.take_succ_cons] at h
    by_cases hq : isnumericL t = true
    · rw [List.takeWhile_cons_of_pos hq] at h
      cases h
    · have hq' : isnumericL t = false := by simpa using hq
      simp [scanGo, hnt, hq']

lemma scanGo_true_done {n : Nat} {s : List Char} (count : Nat) (lr : Option (List Char))
    (h : ((splitToks s).take n).takeWhile isnumericL ≠ []) :
    ∃ lr', scanGo n s count true lr =
      .done ((((splitToks s).take n).takeWhile isnumericL).foldl countAdd count) lr' := by
  cases n with
  | zero => simp at h
  | succ m =>
    cases hnt : nextTok s with
    | none => rw [splitToks_none hnt] at h; simp at h
    | some tr =>
      obtain ⟨t, r⟩ := tr
      rw [splitToks_some hnt] at h ⊢
      by_cases hq : isnumericL t = true
      · obtain ⟨lr', hgo⟩ := scanGo_false m r (countAdd count t) (some r)
        refine ⟨lr', ?_⟩
        simp only [scanGo, hnt, hq, if_true, List.take_succ_cons,
          List.takeWhile_cons_of_pos hq, List.foldl_cons]
        exact hgo
      · rw [List.take_succ_cons, List.takeWhile_cons_of_neg (by simpa using hq)] at h
        exact absurd rfl h

lemma scanGo_stop_false (t : List Char) (rest : List (List Char)) :
    ∀ (pre : List (List Char)) (n : Nat) (s : List Char) (count : Nat)
      (lr : Option (List Char)),
      splitToks s = pre ++ t :: rest → pre.all isnumericL = true →
      isnumericL t = false → pre.length < n →
      ∃ r, scanGo n s count false lr = .done (pre.foldl countAdd count) (some r) ∧
        splitToks r = rest := by
  intro pre
  induction pre with
  | nil =>
    intro n s count lr hs _ ht hn
    obtain ⟨m, rfl⟩ : ∃ m, n = m + 1 := ⟨n - 1, by omega⟩
    rw [List.nil_append] at hs
    obtain ⟨r, hnt, hr⟩ := nextTok_of_splitToks_cons hs
    refine ⟨r, ?_, hr⟩
    simp [scanGo, hnt, ht]
  | cons p ps ih =>
    intro n s count lr hs hall ht hn
    obtain ⟨m, rfl⟩ : ∃ m, n = m + 1 := ⟨n - 1, by omega⟩
    rw [List.cons_append] at hs
    obtain ⟨r1, hnt, hr1⟩ := nextTok_of_splitToks_cons hs
    rw [List.all_cons, Bool.and_eq_true] at hall
    have hlen : ps.length < m := by
      simp only [List.length_cons] at hn
      omega
    obtain ⟨r, hgo, hres⟩ := ih m r1 (countAdd count p) (some r1) hr1 hall.2 ht hlen
    refine ⟨r, ?_, hres⟩
    simp only [scanGo, hnt, hall.1, if_true, List.foldl_cons]
    exact hgo

lemma scan_stop {p t : List Char} {ps rest : List (List Char)} {n : Nat} {s : List Char}
    (hs : splitToks s = (p :: ps) ++ t :: rest)
    (hall : (p :: ps).all isnumericL = true)
    (ht : isnumericL t = false) (hn : (p :: ps).length < n) :
    ∃ r, scanCounters n s = .done ((p :: ps).foldl countAdd 0) (some r) ∧
      splitToks r = rest := by
  obtain ⟨m, rfl⟩ : ∃ m, n = m + 1 := ⟨n - 1, by omega⟩
  rw [List.cons_append] at hs
  obtain ⟨r1, hnt, hr1⟩ := nextTok_of_splitToks_cons hs
  rw [List.all_cons, Bool.and_eq_true] at hall
  have hlen : ps.length < m := by
    simp only [List.length_cons] at hn
    omega
  obtain ⟨r, hgo, hres⟩ := scanGo_stop_false t rest ps m r1 (countAdd 0 p) (some r1)
    hr1 hall.2 ht hlen
  refine ⟨r, ?_, hres⟩
  unfold scanCounters
  simp only [scanGo, hnt, hall.1, if_true, List.foldl_cons]
  exact hgo

/-! ### Token and record invariant lemmas -/

lemma mem_takeWhile_sat {p : Char → Bool} :
    ∀ {l : List Char} {x : Char}, x ∈ l.takeWhile p → p x = true := by
  intro l
  induction l with
  | nil => intro x h; simp at h
  | cons c cs ih =>
    intro x h
    by_cases hc : p c
    · rw [List.takeWhile_cons_of_pos hc] at h
      rcases List.mem_cons.mp h with h1 | h2
      · subst h1; exact hc
      · exact ih h2
    · rw [List.takeWhile_cons_of_neg hc] at h
      simp at h

lemma dropWhile_head_false {p : Char → Bool} :
    ∀ {l : List Char} {c : Char} {cs : List Char},
      l.dropWhile p = c :: cs → p c = false := by
  intro l
  induction l with
  | nil => intro c cs h; simp at h
  | cons a as ih =>
    intro c cs h
    by_cases ha : p a
    · rw [List.dropWhile_cons_of_pos ha] at h
      exact ih h
    · rw [List.dropWhile_cons_of_neg ha] at h
      injection h with h1 _
      subst h1
      simpa using ha

lemma nextTok_no_space {s t r : List Char} (h : nextTok s = some (t, r)) : ' ' ∉ t := by
  unfold nextTok at h
  cases hd : s.dropWhile (· == ' ') with
  | nil => rw [hd] at h; cases h
  | cons c cs =>
    rw [hd] at h
    cases h
    intro hmem
    rcases List.mem_cons.mp hmem with h1 | h2
    · have hc := dropWhile_head_false hd
      simp at hc
      exact hc h1.symm
    · have hc := mem_takeWhile_sat h2
      simp at hc

lemma mem_dropLast {x : Char} {l : List Char} (h : x ∈ l.dropLast) : x ∈ l :=
  List.Sublist.subset (List.dropLast_sublist l) h

lemma processLine_ok_name {arch : Arch} {config : Bool} {n : Nat} {line : List Char}
    {rec : Irqstat} (h : processLine arch config n line = .ok rec) :
    ∃ t0 r, nextTok line = some (t0, r) ∧ rec.name = t0.dropLast ∧
      t0.contains ':' = true := by
  unfold processLine at h
  repeat' split at h
  all_goals cases h
  all_goals exact ⟨_, _, by assumption, rfl, by assumption⟩

lemma readGo_no_space {arch : Arch} {config : Bool} {n : Nat} :
    ∀ (ls : List (List Char)) (acc rs : List Irqstat),
      readGo arch config n ls acc = .ok rs → (∀ x ∈ acc, ' ' ∉ x.name) →
      ∀ x ∈ rs, ' ' ∉ x.name := by
  intro ls
  induction ls with
  | nil =>
    intro acc rs h hacc
    cases h
    exact hacc
  | cons l ls ih =>
    intro acc rs h hacc
    by_cases hb : acc.length = 256
    · simp only [readGo, if_pos hb] at h
      cases h
      exact hacc
    · simp only [readGo, if_neg hb] at h
      cases hpl : processLine arch config n l with
      | err => rw [hpl] at h; cases h
      | crash => rw [hpl] at h; cases h
      | ok r =>
        rw [hpl] at h
        refine ih _ _ h ?_
        intro x hx
        rcases List.mem_append.mp hx with hx1 | hx2
        · exact hacc x hx1
        · have hxr : x = r := by simpa using hx2
          subst hxr
          obtain ⟨t0, r0, hnt, hname, _⟩ := processLine_ok_name hpl
          rw [hname]
          intro hsp
          exact nextTok_no_space hnt (mem_dropLast hsp)

lemma readGo_length {arch : Arch} {config : Bool} {n : Nat} :
    ∀ (ls : List (List Char)) (acc rs : List Irqstat),
      readGo arch config n ls acc = .ok rs → acc.length ≤ 256 → rs.length ≤ 256 := by
  intro ls
  induction ls with
  | nil =>
    intro acc rs h hle
    cases h
    exact hle
  | cons l ls ih =>
    intro acc rs h hle
    by_cases hb : acc.length = 256
    · simp only [readGo, if_pos hb] at h
      cases h
      exact hle
    · simp only [readGo, if_neg hb] at h
      cases hpl : processLine arch config n l with
      | err => rw [hpl] at h; cases h
      | crash => rw [hpl] at h; cases h
      | ok r =>
        rw [hpl] at h
        refine ih _ _ h ?_
        simp only [List.length_append, List.length_cons, List.length_nil]
        omega

lemma readGo_stop {arch : Arch} {config : Bool} {n : Nat} :
    ∀ (ls : List (List Char)) (acc rs : List Irqstat) (extra : List (List Char)),
      readGo arch config n ls acc = .ok rs → rs.length = 256 →
      readGo arch config n (ls ++ extra) acc = .ok rs := by
  intro ls
  induction ls with
  | nil =>
    intro acc rs extra h h256
    cases h
    cases extra with
    | nil => rfl
    | cons e es => simp only [List.nil_append, readGo, if_pos h256]
  | cons l ls ih =>
    intro acc rs extra h h256
    by_cases hb : acc.length = 256
    · simp only [readGo, if_pos hb] at h
      simpa only [List.cons_append, readGo, if_pos hb] using h
    · simp only [readGo, if_neg hb] at h
      simp only [List.cons_append, readGo, if_neg hb]
      cases hpl : processLine arch config n l with
      | err => rw [hpl] at h; cases h
      | crash => rw [hpl] at h; cases h
      | ok r =>
        rw [hpl] at h
        exact ih _ _ _ h h256

/-! ### Claim theorems -/

/-- C3: on every data line the counter tokens are scanned left-to-right up to
the header's CPU-column count, each parsed as a base-10 integer and summed
into `count` (with the code's `strtol` saturation and `unsigned long` wrap);
scanning stops early without error at the first missing or non-numeric token
provided at least one counter was consumed, and the whole scan fails when the
very first expected counter is absent or non-numeric; counters `"5 3"` under
3 expected columns sum to 8 with no error, while a line whose first counter
is non-numeric fails the entire parse. -/
theorem C3_counters (n : Nat) (s : List Char) (hn : 1 ≤ n) :
    (((splitToks s).take n).takeWhile isnumericL = [] → scanCounters n s = .err) ∧
    (((splitToks s).take n).takeWhile isnumericL ≠ [] →
      ∃ lr, scanCounters n s =
        .done ((((splitToks s).take n).takeWhile isnumericL).foldl countAdd 0) lr) ∧
    processLine .generic false 3 (str ("x: 5 3")) =
      .ok ⟨str ("x"), none, 0, false, 8⟩ ∧
    readInterrupts .generic false [str ("CPU0"), str ("E: q")] = .err := by
  refine ⟨fun h => scanGo_true_err hn 0 none h,
    fun h => scanGo_true_done 0 none h, by decide, by decide⟩

/-- C3 witness: the theorem applied at a concrete line whose first counter
token is non-numeric. -/
theorem C3_counters_witness : scanCounters 2 (str (" q 1")) = .err :=
  (C3_counters 2 (str (" q 1")) (by decide)).1 (by decide)

/-- C4 counterexample: the claim predicts that when counter scanning stops at
a non-numeric token, the trailing text handed to the description stage still
contains that stop token.  On the line `"7: 5 foo"` under 2 CPU columns the
scan stops at `"foo"`, yet the handoff (`descText`) yields nothing at all:
the stop token was consumed by `strtok` and is dropped. -/
theorem C4_counterexample :
    ¬ (∀ (n : Nat) (s : List Char) (c : Nat) (lr : Option (List Char))
        (toks : List (List Char)) (k : Nat),
        toks = splitToks s → k = ((toks.take n).takeWhile isnumericL).length →
        1 ≤ k → k < n → k < toks.length → isnumericL (toks.getD k []) = false →
        scanCounters n s = .done c lr →
        ∃ p2, descText lr = some p2 ∧ splitToks p2 = toks.drop k) := by
  intro h
  obtain ⟨p2, hp2, _⟩ := h 2 (str (" 5 foo")) 5 (some []) [str ("5"), str ("foo")] 1
    (by decide) (by decide) (by decide) (by decide) (by decide) (by decide) (by decide)
  rw [show descText (some ([] : List Char)) = none from rfl] at hp2
  cases hp2

/-- C4 amended: when counter scanning stops at a non-numeric token before
exhausting the line, that stop token is consumed; the remainder handed to the
description stage is the text strictly after it, so the description stage
sees exactly the tokens following the stop token (never the stop token
itself). -/
theorem C4_amended (n : Nat) (s : List Char) (p t : List Char)
    (ps rest : List (List Char))
    (hsplit : splitToks s = (p :: ps) ++ t :: rest)
    (hall : (p :: ps).all isnumericL = true)
    (ht : isnumericL t = false) (hn : (p :: ps).length < n) :
    ∃ r, scanCounters n s = .done ((p :: ps).foldl countAdd 0) (some r) ∧
      splitToks r = rest :=
  scan_stop hsplit hall ht hn

/-- C4 witness: on `" 5 foo bar"` under 3 columns the scan stops at `"foo"`
and the remainder holds exactly the token `"bar"`. -/
theorem C4_amended_witness :
    ∃ r, scanCounters 3 (str (" 5 foo bar")) = .done 5 (some r) ∧
      splitToks r = [str ("bar")] := by
  obtain ⟨r, h1, h2⟩ := C4_amended 3 (str (" 5 foo bar")) (str ("5")) (str ("foo"))
    [] [str ("bar")] (by decide) (by decide) (by decide) (by decide)
  refine ⟨r, ?_, h2⟩
  rw [show ([str ("5")].foldl countAdd 0) = 5 from by decide] at h1
  exact h1

/-- C6 counterexample: a data line whose first token is literally `"FIQ:"` is
not skipped.  With input `CPU0 / FIQ: usb_fiq / 1: 5` the whole parse fails
(the FIQ line's first expected counter is non-numeric), producing no records,
where the claim promised the line would be skipped and processing would
continue. -/
theorem C6_counterexample :
    readInterrupts .generic false
      [str ("CPU0"), str ("FIQ: usb_fiq"), str ("1: 5")] = .err ∧
    ∀ rs, readInterrupts .generic false
      [str ("CPU0"), str ("FIQ: usb_fiq"), str ("1: 5")] ≠ .ok rs := by
  refine ⟨by decide, fun rs h => ?_⟩
  rw [show readInterrupts .generic false
      [str ("CPU0"), str ("FIQ: usb_fiq"), str ("1: 5")] = .err from by decide] at h
  cases h

/-- C6 amended: a line beginning with the token `"FIQ:"` receives no special
treatment; it is parsed like any other line, so when it carries no numeric
counter tokens the whole parse fails instead of skipping the line. -/
theorem C6_amended (arch : Arch) (config : Bool) (n : Nat) (s r : List Char)
    (hn : 1 ≤ n) (hlen : s.length < 4095)
    (htok : nextTok s = some (str ("FIQ:"), r))
    (hscan : ((splitToks r).take n).takeWhile isnumericL = []) :
    processLine arch config n s = .err := by
  have hsc : scanCounters n r = .err := scanGo_true_err hn 0 none hscan
  have hov : ¬ 4095 ≤ s.length := by omega
  have hcol : (str ("FIQ:")).contains ':' = true := by decide
  simp [processLine, hov, htok, hcol, hsc]

/-- C6 witness: the amended theorem applied to the ARM-style FIQ line. -/
theorem C6_amended_witness :
    processLine .generic false 1 (str ("FIQ: usb_fiq")) = .err :=
  C6_amended .generic false 1 (str ("FIQ: usb_fiq")) (str (" usb_fiq"))
    (by decide) (by decide) (by decide) (by decide)

/-- C10: the single-token description path is a genuine code bug.  After the
token loop `pos` is NULL whenever the trimmed trailing text held exactly one
token, yet `strcpy(irqstats[irq_num].description, pos)` is executed with that
NULL source — undefined behaviour (modelled as `crash`) — on input as simple
as `CPU0 / 7: 5 foo` in config mode.  The claim that this path copies from a
valid non-null string is what the code intends but not what it does. -/
theorem C10_bug :
    readInterrupts .generic true [str ("CPU0"), str ("7: 5 foo")] = .crash ∧
    descStage .generic (str ("7")) (str ("foo")) = .crash :=
  ⟨by decide, by decide⟩

/-- C1 counterexample: the claim's generic rule is stated for trailing text
of at least 2 tokens with token 1 numeric, but the code's branch requires
`token_num >= 2`, i.e. at least 3 tokens.  For numeric name `"5"` with the
2-token tail `"foo 42"` the claim predicts a recorded hardwareIrq of 42
(42 differs from 5); the code takes the x86 fallback instead and records
none (the description is `"42"`, starting at index 1). -/
theorem C1_counterexample :
    ¬ (∀ (name p2 t0 t1 : List Char) (ts : List (List Char)),
        isnumericL name = true → (splitToks p2).take 32 = t0 :: t1 :: ts →
        isnumericL t1 = true → strtoul10 t1 ≠ strtoul10 name →
        ∃ d, descStage .generic name p2 = .ok d (some (strtoul10 t1))) := by
  intro h
  obtain ⟨d, hd⟩ := h (str ("5")) (str ("foo 42")) (str ("foo")) (str ("42")) []
    (by decide) (by decide) (by decide) (by decide)
  rw [show descStage .generic (str ("5")) (str ("foo 42")) = .ok (str ("42")) none
      from by decide] at hd
  injection hd with h1 h2
  exact Option.noConfusion h2

/-- C1 amended: in description-capture mode, for a data line whose name is
fully numeric and whose trailing text splits into at least 3 tokens (of the
first 32) with token 1 fully numeric, the description starts at token index
2, advanced to index 3 when the token at index 2 is exactly "Edge", "Level"
or "None" (the type token is dropped) — provided a token remains at the
chosen index — and hardwareIrq is recorded exactly when token 1's integer
value differs from name's numeric value. -/
theorem C1_amended (name p2 t0 t1 t2 : List Char) (ts : List (List Char))
    (hname : isnumericL name = true)
    (htoks : (splitToks p2).take 32 = t0 :: t1 :: t2 :: ts)
    (hnum : isnumericL t1 = true)
    (hstart : (if typeTok t2 then 3 else 2) < (t0 :: t1 :: t2 :: ts).length) :
    descStage .generic name p2 =
      .ok (List.intercalate [' ']
          ((t0 :: t1 :: t2 :: ts).drop (if typeTok t2 then 3 else 2)))
        (if strtoul10 t1 == strtoul10 name then none else some (strtoul10 t1)) := by
  by_cases htt : typeTok t2 = true
  · cases ts with
    | nil => rw [if_pos htt] at hstart; simp at hstart
    | cons u us =>
      have hd3 : (t0 :: t1 :: t2 :: u :: us).drop 3 = u :: us := rfl
      simp [descStage, hname, htoks, hnum, htt, hd3]
  · have hd2 : (t0 :: t1 :: t2 :: ts).drop 2 = t2 :: ts := rfl
    simp [descStage, hname, htoks, hnum, htt, hd2]

/-- C1 witness: both worked examples of the claim.  Name "33" with tail
"f1010140.gpio 17 Edge pps.-1" yields hardwareIrq 17 and description
"pps.-1"; name "38" with tail "OpenPIC 38 Level i2c-mpc, i2c-mpc" yields
description "i2c-mpc, i2c-mpc" and no hardwareIrq. -/
theorem C1_amended_witness :
    descStage .generic (str ("33")) (str ("f1010140.gpio 17 Edge pps.-1")) =
      .ok (str ("pps.-1")) (some 17) ∧
    descStage .generic (str ("38")) (str ("OpenPIC 38 Level i2c-mpc, i2c-mpc")) =
      .ok (str ("i2c-mpc, i2c-mpc")) none := by
  constructor
  · have h := C1_amended (str ("33")) (str ("f1010140.gpio 17 Edge pps.-1"))
      (str ("f1010140.gpio")) (str ("17")) (str ("Edge")) [str ("pps.-1")]
      (by decide) (by decide) (by decide) (by decide)
    rw [h]
    decide
  · have h := C1_amended (str ("38")) (str ("OpenPIC 38 Level i2c-mpc, i2c-mpc"))
      (str ("OpenPIC")) (str ("38")) (str ("Level")) [str ("i2c-mpc,"), str ("i2c-mpc")]
      (by decide) (by decide) (by decide) (by decide)
    rw [h]
    decide

/-- C5 counterexample: the original SPARC rule, applied exactly as the claim
states it.  With at least 2 trailing tokens whose second token begins with
"-", the claim's start index is 2; whenever the token at that chosen start
index equals "MSIQ" or begins with "SCHIZO_" or "PSYCHO_", the claim says
hardwareIrq is set to the numeric value of name.  For numeric name "7" with
tail "a -b SCHIZO_X" the second token "-b" begins with "-", so the claim's
own rule selects index 2, finds the "SCHIZO_"-prefixed token there, and
predicts hardwareIrq 7 — but the code compares tokens[2] against "MSIQ"
only and records none. -/
theorem C5_counterexample :
    ¬ (∀ (name p2 : List Char) (toks : List (List Char)) (k : Nat),
        isnumericL name = true → (splitToks p2).take 32 = toks →
        2 ≤ toks.length →
        k = (if (str ("-")).isPrefixOf (toks.getD 1 []) then 2 else 1) →
        (toks.getD k [] == str ("MSIQ")
          || (str ("SCHIZO_")).isPrefixOf (toks.getD k [])
          || (str ("PSYCHO_")).isPrefixOf (toks.getD k [])) = true →
        ∃ d, descStage .sparc name p2 = .ok d (some (strtoul10 name))) := by
  intro h
  obtain ⟨d, hd⟩ := h (str ("7")) (str ("a -b SCHIZO_X"))
    [str ("a"), str ("-b"), str ("SCHIZO_X")] 2
    (by decide) (by decide) (by decide) (by decide) (by decide)
  rw [show descStage .sparc (str ("7")) (str ("a -b SCHIZO_X")) =
      .ok (str ("SCHIZO_X")) none from by decide] at hd
  injection hd with h1 h2
  exact Option.noConfusion h2

/-- C5 amended: on SPARC builds, for a numeric-named line in
description-capture mode whose trailing text splits into at least 3 tokens
(of the first 32), the description starts at token index 2 and hardwareIrq
is set to the numeric value of name exactly when the token at index 2 equals
"MSIQ"; a leading "-" on the second token and the prefixes "SCHIZO_" and
"PSYCHO_" play no role. -/
theorem C5_amended (name p2 t0 t1 t2 : List Char) (ts : List (List Char))
    (hname : isnumericL name = true)
    (htoks : (splitToks p2).take 32 = t0 :: t1 :: t2 :: ts) :
    descStage .sparc name p2 =
      .ok (List.intercalate [' '] (t2 :: ts))
        (if t2 == str ("MSIQ") then some (strtoul10 name) else none) := by
  have hd2 : (t0 :: t1 :: t2 :: ts).drop 2 = t2 :: ts := rfl
  simp [descStage, hname, htoks, hd2]

/-- C5 witness: a SPARC MSIQ line with numeric name "12". -/
theorem C5_amended_witness :
    descStage .sparc (str ("12")) (str ("a b MSIQ")) = .ok (str ("MSIQ")) (some 12) := by
  have h := C5_amended (str ("12")) (str ("a b MSIQ")) (str ("a")) (str ("b"))
    (str ("MSIQ")) [] (by decide) (by decide)
  rw [h]
  decide

/-- C2 counterexample: the claim says the whole parse fails unless token 0
ends in exactly one colon as its final character, but the code only checks
that a colon occurs somewhere and then strips the final character whatever it
is.  The line "a:b 5" parses successfully with record name "a:". -/
theorem C2_counterexample :
    ¬ (∀ (n : Nat) (line t0 r : List Char) (rec : Irqstat),
        nextTok line = some (t0, r) →
        processLine .generic false n line = .ok rec →
        t0.getLast? = some ':') := by
  intro h
  have h2 := h 1 (str ("a:b 5")) (str ("a:b")) (str (" 5"))
    ⟨str ("a:"), none, 0, false, 5⟩ (by decide) (by decide)
  exact absurd h2 (by decide)

/-- C2 amended: a data line fails the name check exactly when its token 0
contains no colon at all; whenever the line produces a record, the record's
name is token 0 with its final character removed (for a well-formed token
such as "16:" this strips the colon, yielding "16", never "16:"). -/
theorem C2_amended (arch : Arch) (config : Bool) (n : Nat) (line t0 r : List Char)
    (hlen : line.length < 4095) (htok : nextTok line = some (t0, r)) :
    (t0.contains ':' = false → processLine arch config n line = .err) ∧
    (∀ rec, processLine arch config n line = .ok rec →
      rec.name = t0.dropLast ∧ t0.contains ':' = true) := by
  have hov : ¬ 4095 ≤ line.length := by omega
  constructor
  · intro hc
    have hc' : ¬ ':' ∈ t0 := by simpa using hc
    simp [processLine, hov, htok, hc, hc']
  · intro rec h
    obtain ⟨t0', r', hnt, hn1, hc⟩ := processLine_ok_name h
    rw [htok] at hnt
    injection hnt with hpair
    injection hpair with he1 he2
    subst he1
    exact ⟨hn1, hc⟩

/-- C2 witness: the round-trip example — name token "16:" produces record
name "16" (the colon stripped). -/
theorem C2_amended_witness :
    (⟨str ("16"), none, 0, false, 7⟩ : Irqstat).name = (str ("16:")).dropLast ∧
    (str ("16:")).contains ':' = true :=
  (C2_amended .generic false 1 (str ("16: 7")) (str ("16:")) (str (" 7"))
    (by decide) (by decide)).2 ⟨str ("16"), none, 0, false, 7⟩ (by decide)

/-- C7: the header line's whitespace-separated tokens must each begin with
the literal, case-sensitive prefix "CPU"; the number of tokens becomes the
counter-column count used for every subsequent line, and the whole parse
fails — yielding no data — when the header is empty or contains a token not
starting with "CPU".  Concretely, header "CPU0 CPU1 CPU2" yields exactly 3
counter columns scanned per data line (a fourth numeric token is left
unsummed). -/
theorem C7_header (arch : Arch) (config : Bool) (line : List Char)
    (ls : List (List Char)) (hlen : line.length < 4095) :
    (splitToks line = [] → readInterrupts arch config (line :: ls) = .err) ∧
    ((∃ t ∈ splitToks line, ¬ t.take 3 = str ("CPU")) →
      readInterrupts arch config (line :: ls) = .err) ∧
    (splitToks line ≠ [] → (∀ t ∈ splitToks line, t.take 3 = str ("CPU")) →
      readInterrupts arch config (line :: ls) =
        readGo arch config (splitToks line).length ls []) ∧
    readInterrupts .generic false [str ("CPU0 CPU1 CPU2"), str ("x: 1 2 3 4")] =
      .ok [⟨str ("x"), none, 0, false, 6⟩] := by
  have hov : ¬ 4095 ≤ line.length := by omega
  refine ⟨?_, ?_, ?_, by decide⟩
  · intro h
    have hph : parseHeader line = none := by
      simp [parseHeader, hov, h]
    simp [readInterrupts, hph]
  · intro h
    have hall : ¬ (splitToks line).all (fun t => t.take 3 == str ("CPU")) = true := by
      obtain ⟨t, ht, hne⟩ := h
      rw [List.all_eq_true]
      intro hforall
      exact hne (by simpa using hforall t ht)
    have hph : parseHeader line = none := by
      unfold parseHeader
      rw [if_neg hov]
      by_cases he : (splitToks line).isEmpty = true
      · simp [he]
      · simp only [he, if_false, Bool.false_eq_true]
        simp [hall]
    simp [readInterrupts, hph]
  · intro hne hcpu
    have hph : parseHeader line = some (splitToks line).length := by
      unfold parseHeader
      rw [if_neg hov]
      have he : (splitToks line).isEmpty = false := by
        simpa [List.isEmpty_iff] using hne
      have hall : (splitToks line).all (fun t => t.take 3 == str ("CPU")) = true := by
        rw [List.all_eq_true]
        intro t ht
        simpa using hcpu t ht
      simp [he, hall]
    simp [readInterrupts, hph]

/-- C7 witness: a two-column header establishes column count 2 and hands the
remaining lines to the data-line loop. -/
theorem C7_header_witness :
    readInterrupts .generic false [str ("CPU0 CPU1")] = readGo .generic false 2 [] [] := by
  have h := (C7_header .generic false (str ("CPU0 CPU1")) [] (by decide)).2.2.1
    (by decide) (by decide)
  rw [show (splitToks (str ("CPU0 CPU1"))).length = 2 from by decide] at h
  exact h

/-- C8 counterexample: a record produced by a successful parse can have an
empty name — the degenerate name token ":" is accepted (it contains a colon)
and stripping its final character leaves the empty string. -/
theorem C8_counterexample :
    readInterrupts .generic false [str ("CPU0"), str (": 5")] =
      .ok [⟨[], none, 0, false, 5⟩] ∧
    (⟨([] : List Char), none, 0, false, 5⟩ : Irqstat).name = [] :=
  ⟨by decide, rfl⟩

/-- C8 amended: every record of a completed, successful parse has a name
containing no occurrence of the space byte used to separate counter columns
(names come from `strtok` tokens); the name can however be empty, as the
one-character token ":" shows, so the claim's non-emptiness half fails. -/
theorem C8_amended (arch : Arch) (config : Bool) (lines : List (List Char))
    (rs : List Irqstat) (h : readInterrupts arch config lines = .ok rs) :
    ∀ x ∈ rs, ' ' ∉ x.name := by
  cases lines with
  | nil =>
    cases h
    simp
  | cons l ls =>
    cases hph : parseHeader l with
    | none =>
      simp only [readInterrupts, hph] at h
      cases h
    | some n =>
      simp only [readInterrupts, hph] at h
      exact readGo_no_space ls [] rs h (by simp)

/-- C8 witness: the amended invariant applied to a concrete parse and its
single record. -/
theorem C8_amended_witness :
    ' ' ∉ (⟨str ("9"), none, 0, false, 1⟩ : Irqstat).name :=
  C8_amended .generic false [str ("CPU0"), str ("9: 1")]
    [⟨str ("9"), none, 0, false, 1⟩] (by decide)
    ⟨str ("9"), none, 0, false, 1⟩ (by decide)

/-- C9: a successful parse never produces more than 256 records, and once
256 records have been gathered, any further input lines are silently ignored
— appending arbitrary extra lines (even malformed ones) leaves the result
unchanged, with the gathered records reported normally. -/
theorem C9_bound (arch : Arch) (config : Bool) (lines extra : List (List Char))
    (rs : List Irqstat) (h : readInterrupts arch config lines = .ok rs) :
    rs.length ≤ 256 ∧
      (rs.length = 256 → readInterrupts arch config (lines ++ extra) = .ok rs) := by
  cases lines with
  | nil =>
    cases h
    exact ⟨by simp, fun h256 => by simp at h256⟩
  | cons l ls =>
    cases hph : parseHeader l with
    | none =>
      simp only [readInterrupts, hph] at h
      cases h
    | some n =>
      simp only [readInterrupts, hph] at h
      refine ⟨readGo_length ls [] rs h (by simp), fun h256 => ?_⟩
      have hgo := readGo_stop ls [] rs extra h h256
      rw [List.cons_append]
      simp only [readInterrupts, hph]
      exact hgo

/-- C9 witness: the theorem applied to a concrete two-line parse. -/
theorem C9_bound_witness :
    ([(⟨str ("1"), none, 0, false, 5⟩ : Irqstat)]).length ≤ 256 ∧
      (([(⟨str ("1"), none, 0, false, 5⟩ : Irqstat)]).length = 256 →
        readInterrupts .generic false ([str ("CPU0"), str ("1: 5")] ++ []) =
          .ok [⟨str ("1"), none, 0, false, 5⟩]) :=
  C9_bound .generic false [str ("CPU0"), str ("1: 5")] []
    [⟨str ("1"), none, 0, false, 5⟩] (by decide)
